import Mathlib

/-!
Shallow embedding of the mini-fs library (`src/lib.rs`): the `Store` capability,
the `Ram` in-memory store, the `MiniFs` mount table, the `Merge` combinator,
the `Empty` sentinel and the `merge!` right fold, together with theorems about
the mount-resolution and merge-priority behaviour.

Paths are modelled as lists of components, matching Rust `Path` semantics:
`Path` equality and `strip_prefix` in Rust both compare component-wise, so a
component list is the faithful observable representation.  A separate
`components` function models the parsing of a path string into components for
the claims that distinguish character-level from component-level prefixes.
-/

namespace MiniFsLib

/-- A path, as its list of components (Rust `Path`/`PathBuf`, which compare
and strip prefixes component-wise).  The root of an absolute path is the
component `"/"`. -/
abbrev Path := List String

/-- Modelled from the spec: the error taxonomy of the `err` module, whose file
is not under `src/`.  Section 7 of the spec gives two classes: NotFound
(`Error::FileNotFound` in `lib.rs`) and BackendFailure, an underlying I/O or
container-format error distinct from NotFound, wrapping diagnostic detail. -/
inductive Error where
  | FileNotFound : Error
  | BackendFailure : String → Error
deriving DecidableEq, Repr

/-- Modelled from the spec: the Readable Handle of the `file` module, whose
file is not under `src/`.  `from_ram` wraps an in-memory byte buffer (bytes as
`Nat`), `from_fs` an opaque local file handle. -/
inductive File where
  | from_ram : List Nat → File
  | from_fs : Nat → File
deriving DecidableEq, Repr

/-- The `Store` trait: a single capability `open(&self, path) -> Result<File>`.
A trait object is its `open` function. -/
structure Store where
  open' : Path → Except Error File

/-- Insert into an association list with map semantics (`BTreeMap::insert`):
replace the value when the key is present, otherwise add the entry. -/
def mapInsert : List (Path × List Nat) → Path → List Nat → List (Path × List Nat)
  | [], k, v => [(k, v)]
  | (k', v') :: rest, k, v =>
    if k' = k then (k, v) :: rest else (k', v') :: mapInsert rest k v

/-- Lookup in an association list (`BTreeMap::get`). -/
def mapGet : List (Path × List Nat) → Path → Option (List Nat)
  | [], _ => none
  | (k', v') :: rest, k => if k' = k then some v' else mapGet rest k

/-- The keys of the map are pairwise distinct (the `BTreeMap` unique-key
invariant). -/
def keysNodup (m : List (Path × List Nat)) : Prop :=
  (m.map Prod.fst).Nodup

/-- In-memory data store `Ram { inner: BTreeMap<PathBuf, Vec<u8>> }`. -/
structure Ram where
  inner : List (Path × List Nat)

/-- `Ram::new`. -/
def Ram.new : Ram := ⟨[]⟩

/-- `Ram::clear`: `self.inner.clear()`. -/
def Ram.clear (_ : Ram) : Ram := ⟨[]⟩

/-- `Ram::touch`: `self.inner.insert(path.into(), file.into())`. -/
def Ram.touch (r : Ram) (path : Path) (file : List Nat) : Ram :=
  ⟨mapInsert r.inner path file⟩

/-- `impl Store for Ram`: `self.inner.get(path).map(File::from_ram).ok_or(FileNotFound)`. -/
def Ram.open' (r : Ram) (path : Path) : Except Error File :=
  match mapGet r.inner path with
  | some b => .ok (File.from_ram b)
  | none => .error .FileNotFound

/-- The `Ram` store as a `Store` trait object. -/
def Ram.toStore (r : Ram) : Store := ⟨r.open'⟩

/-- `Path::strip_prefix`: component-wise removal of `base` (second argument)
from the front of the path (first argument); `none` when `base` is not a
component-level prefix. -/
def stripPrefixComp : Path → Path → Option Path
  | p, [] => some p
  | [], _ :: _ => none
  | a :: p, b :: q => if a = b then stripPrefixComp p q else none

/-- Split a character list on `/` separators, accumulating the current
component in reverse. -/
def splitOnSlash : List Char → List Char → List (List Char)
  | [], acc => [acc.reverse]
  | c :: rest, acc =>
    if c = '/' then acc.reverse :: splitOnSlash rest []
    else splitOnSlash rest (c :: acc)

/-- Parse a path string into components, following Rust `Path::components`
normalisation: split on `/`, ignore empty components (repeated or trailing
separators), drop `.` components except a leading one, and record the root of
an absolute path as the component `"/"`. -/
def components (s : String) : Path :=
  let raw := (splitOnSlash s.data []).filter (fun c => !c.isEmpty)
  if s.data.head? = some '/' then
    "/" :: (raw.filter (fun c => c ≠ ['.'])).map String.mk
  else
    match raw with
    | [] => []
    | c :: rest => String.mk c :: (rest.filter (fun c => c ≠ ['.'])).map String.mk

/-- A mount binding `Mount { path, store }`. -/
structure Mount where
  path : Path
  store : Store

/-- The mount table `MiniFs { inner: LinkedList<Mount> }`. -/
structure MiniFs where
  inner : List Mount

/-- `MiniFs::new`. -/
def MiniFs.new : MiniFs := ⟨[]⟩

/-- `MiniFs::mount`: `self.inner.push_back(Mount { path, store })`. -/
def MiniFs.mount (fs : MiniFs) (path : Path) (store : Store) : MiniFs :=
  ⟨fs.inner ++ [⟨path, store⟩]⟩

/-- `Iterator::rposition`: index of the last element satisfying the
predicate. -/
def rposition : List Mount → (Mount → Bool) → Option Nat
  | [], _ => none
  | m :: rest, pred =>
    match rposition rest pred with
    | some i => some (i + 1)
    | none => if pred m then some 0 else none

/-- `MiniFs::umount`: find the last binding whose path equals the argument
(`rposition`), `split_off` there, `pop_front` the match, `append` the rest
back; returns the removed store (if any) and the updated table. -/
def MiniFs.umount (fs : MiniFs) (path : Path) : Option Store × MiniFs :=
  match rposition fs.inner (fun m => m.path == path) with
  | some p =>
    let tail := fs.inner.drop p
    (tail.head?.map Mount.store, ⟨fs.inner.take p ++ tail.drop 1⟩)
  | none => (none, fs)

/-- The `find_map` over `self.inner.iter().rev()` in `MiniFs::open`: the first
binding, scanning from the most recently mounted, whose path strip-prefixes
the lookup path, together with the stripped remainder. -/
def findNext : List Mount → Path → Option (Path × Store)
  | [], _ => none
  | m :: rest, path =>
    match findNext rest path with
    | some r => some r
    | none =>
      match stripPrefixComp path m.path with
      | some np => some (np, m.store)
      | none => none

/-- `impl Store for MiniFs`: forward the stripped remainder to the found
binding's store, or fail with `FileNotFound` when no binding matches. -/
def MiniFs.open' (fs : MiniFs) (path : Path) : Except Error File :=
  match findNext fs.inner path with
  | some (np, store) => store.open' np
  | none => .error .FileNotFound

/-- `MiniFs::mount` called with a path string (`P: Into<PathBuf>`). -/
def MiniFs.mountStr (fs : MiniFs) (s : String) (store : Store) : MiniFs :=
  fs.mount (components s) store

/-- `MiniFs::open` called with a path string. -/
def MiniFs.openStr (fs : MiniFs) (s : String) : Except Error File :=
  fs.open' (components s)

/-- `Merge<A, B>`: `a.open(path).or_else(|_| b.open(path))`. -/
def Merge (a b : Store) : Store :=
  ⟨fun path =>
    match a.open' path with
    | .ok f => .ok f
    | .error _ => b.open' path⟩

/-- `Empty`: `open` unconditionally returns `Err(FileNotFound)`. -/
def Empty : Store := ⟨fun _ => .error .FileNotFound⟩

/-- The `merge!` macro: `merge!(s)` is `Merge(s, Empty)` and
`merge!(s, rest...)` is `Merge(s, merge!(rest...))` — a right-nested fold over
a nonempty list of stores. -/
def mergeList : Store → List Store → Store
  | s, [] => Merge s Empty
  | s, t :: rest => Merge s (mergeList t rest)

/-- Spec-side description of the N-way merge: the result of the first store in
the list whose `open` succeeds, `FileNotFound` when every store fails. -/
def firstOk : List Store → Path → Except Error File
  | [], _ => .error .FileNotFound
  | s :: rest, path =>
    match s.open' path with
    | .ok f => .ok f
    | .error _ => firstOk rest path

/-- A store that fails with a backend (I/O-class) error, as a `Local` store
does when the underlying filesystem reports an error other than not-found. -/
def ioFailStore : Store := ⟨fun _ => .error (.BackendFailure "io")⟩

/-- A `Ram` store holding one file at `etc/x`. -/
def ramA : Ram := Ram.new.touch ["etc", "x"] [120]

theorem stripPrefixComp_self (p : Path) : stripPrefixComp p p = some [] := by
  induction p with
  | nil => rfl
  | cons a p ih => simp [stripPrefixComp, ih]

theorem findNext_eq_none (l : List Mount) (p : Path)
    (h : ∀ m ∈ l, stripPrefixComp p m.path = none) : findNext l p = none := by
  induction l with
  | nil => rfl
  | cons m rest ih =>
    have hm := h m (List.mem_cons_self m rest)
    have hr := ih fun m' hm' => h m' (List.mem_cons_of_mem m hm')
    simp [findNext, hr, hm]

theorem findNext_append (l1 l2 : List Mount) (p : Path) :
    findNext (l1 ++ l2) p =
      match findNext l2 p with
      | some r => some r
      | none => findNext l1 p := by
  induction l1 with
  | nil =>
    cases h : findNext l2 p <;> simp [findNext, h]
  | cons m l1 ih =>
    rw [List.cons_append, findNext, ih]
    cases h2 : findNext l2 p
    · rfl
    · rfl

theorem rposition_eq_none (l : List Mount) (pred : Mount → Bool)
    (h : ∀ m ∈ l, pred m = false) : rposition l pred = none := by
  induction l with
  | nil => rfl
  | cons m rest ih =>
    have hm := h m (List.mem_cons_self m rest)
    have hr := ih fun m' hm' => h m' (List.mem_cons_of_mem m hm')
    simp [rposition, hr, hm]

theorem rposition_append (l1 l2 : List Mount) (pred : Mount → Bool) :
    rposition (l1 ++ l2) pred =
      match rposition l2 pred with
      | some i => some (l1.length + i)
      | none => rposition l1 pred := by
  induction l1 with
  | nil =>
    cases h : rposition l2 pred <;> simp [rposition, h]
  | cons m l1 ih =>
    rw [List.cons_append, rposition, ih]
    cases h2 : rposition l2 pred
    · rfl
    · simp only [List.length_cons, Option.some.injEq]
      omega

theorem mapGet_mapInsert_self (m : List (Path × List Nat)) (k : Path) (v : List Nat) :
    mapGet (mapInsert m k v) k = some v := by
  induction m with
  | nil => simp [mapInsert, mapGet]
  | cons e rest ih =>
    obtain ⟨k', v'⟩ := e
    by_cases h : k' = k <;> simp [mapInsert, mapGet, h, ih]

/-- C8: `Empty.open` fails with `FileNotFound` on every path, never succeeds
and never produces any other error class. -/
theorem empty_open_fails (p : Path) : Empty.open' p = .error .FileNotFound := rfl

/-- C2: `Merge(A, B).open(p)` equals `A.open(p)` when that succeeds; when
`A.open(p)` fails with any error, the result is exactly `B.open(p)` (success
or failure) and A's error is discarded. -/
theorem merge_open_policy (a b : Store) (p : Path) :
    (∀ f, a.open' p = .ok f → (Merge a b).open' p = .ok f) ∧
    (∀ e, a.open' p = .error e → (Merge a b).open' p = b.open' p) := by
  constructor
  · intro f h; simp [Merge, h]
  · intro e h; simp [Merge, h]

/-- Witness for C2: a primary store failing with a backend error merged over
an empty `Ram` store yields the `Ram` store's `FileNotFound`, discarding the
primary's backend error. -/
theorem merge_open_policy_witness :
    (Merge ioFailStore Ram.new.toStore).open' [] = Except.error Error.FileNotFound :=
  ((merge_open_policy ioFailStore Ram.new.toStore []).2 (Error.BackendFailure "io") rfl).trans rfl

/-- Counterexample for C3: when the primary fails with a backend error,
`Merge(A, Empty).open(p)` is `FileNotFound`, not `A.open(p)`'s error. -/
theorem merge_empty_not_identity :
    (Merge ioFailStore Empty).open' [] ≠ ioFailStore.open' [] := by
  intro h
  exact Error.noConfusion (Except.error.inj h)

/-- C3 (amended): `Merge(A, Empty).open(p)` equals `A.open(p)` when `A`
succeeds or fails with `FileNotFound`; when `A` fails with any error the
result is `FileNotFound`, so the identity does not extend to other error
kinds. -/
theorem merge_empty_amended (a : Store) (p : Path) :
    (∀ f, a.open' p = .ok f → (Merge a Empty).open' p = a.open' p) ∧
    (a.open' p = .error .FileNotFound → (Merge a Empty).open' p = a.open' p) ∧
    (∀ e, a.open' p = .error e → (Merge a Empty).open' p = .error .FileNotFound) := by
  refine ⟨fun f h => ?_, fun h => ?_, fun e h => ?_⟩ <;> simp [Merge, Empty, h]

/-- Witness for C3 (amended): an empty `Ram` store fails with `FileNotFound`,
and merging it over `Empty` preserves its result. -/
theorem merge_empty_amended_witness :
    (Merge Ram.new.toStore Empty).open' ["a"] = Ram.new.toStore.open' ["a"] :=
  (merge_empty_amended Ram.new.toStore ["a"]).2.1 rfl

theorem mergeList_open_eq_firstOk (s : Store) (rest : List Store) (p : Path) :
    (mergeList s rest).open' p = firstOk (s :: rest) p := by
  induction rest generalizing s with
  | nil => cases h : s.open' p <;> simp [mergeList, Merge, Empty, firstOk, h]
  | cons t rest ih => cases h : s.open' p <;> simp [mergeList, Merge, firstOk, h, ih]

theorem firstOk_all_fail (l : List Store) (p : Path)
    (h : ∀ t ∈ l, ∃ e, t.open' p = .error e) : firstOk l p = .error .FileNotFound := by
  induction l with
  | nil => rfl
  | cons s rest ih =>
    obtain ⟨e, he⟩ := h s (List.mem_cons_self s rest)
    simp [firstOk, he, ih fun t ht => h t (List.mem_cons_of_mem s ht)]

/-- C5: the N-way merge of `[s1, ..., sn]` is the right-nested chain
`Merge(s1, Merge(s2, ..., Merge(sn, Empty)))`; its `open(p)` is the result of
the first store in the list whose `open(p)` succeeds, and is `FileNotFound`
when every store in the list fails. -/
theorem mergeList_spec :
    (∀ s : Store, mergeList s [] = Merge s Empty) ∧
    (∀ (s t : Store) (rest : List Store),
      mergeList s (t :: rest) = Merge s (mergeList t rest)) ∧
    (∀ (s : Store) (rest : List Store) (p : Path),
      (mergeList s rest).open' p = firstOk (s :: rest) p) ∧
    (∀ (s : Store) (rest : List Store) (p : Path),
      (∀ t ∈ s :: rest, ∃ e, t.open' p = .error e) →
      (mergeList s rest).open' p = .error .FileNotFound) := by
  refine ⟨fun s => rfl, fun s t rest => rfl, mergeList_open_eq_firstOk, ?_⟩
  intro s rest p h
  rw [mergeList_open_eq_firstOk]
  exact firstOk_all_fail (s :: rest) p h

/-- Witness for C5: merging an empty `Ram` store over a backend-failing store
fails with `FileNotFound` when both constituents fail. -/
theorem mergeList_spec_witness :
    (mergeList Ram.new.toStore [ioFailStore]).open' ["a"] = Except.error Error.FileNotFound :=
  mergeList_spec.2.2.2 Ram.new.toStore [ioFailStore] ["a"] (by
    intro t ht
    cases ht with
    | head => exact ⟨Error.FileNotFound, rfl⟩
    | tail _ h2 =>
      cases h2 with
      | head => exact ⟨Error.BackendFailure "io", rfl⟩
      | tail _ h3 => cases h3)

/-- C6: on a `Ram` store, `touch(p, b)` followed by `open(p)` yields exactly
the bytes `b`, and `clear()` followed by `open(p)` fails with `FileNotFound`
for every path. -/
theorem ram_touch_clear_roundtrip :
    (∀ (r : Ram) (p : Path) (b : List Nat),
      (r.touch p b).open' p = .ok (File.from_ram b)) ∧
    (∀ (r : Ram) (p : Path), r.clear.open' p = .error .FileNotFound) := by
  constructor
  · intro r p b
    simp [Ram.touch, Ram.open', mapGet_mapInsert_self]
  · intro r p
    rfl

theorem mapInsert_mapInsert_self (m : List (Path × List Nat)) (k : Path) (v1 v2 : List Nat) :
    mapInsert (mapInsert m k v1) k v2 = mapInsert m k v2 := by
  induction m with
  | nil => simp [mapInsert]
  | cons e rest ih =>
    obtain ⟨k', v'⟩ := e
    by_cases h : k' = k
    · simp [mapInsert, h]
    · simp [mapInsert, h, ih]

theorem mem_keys_mapInsert (m : List (Path × List Nat)) (k : Path) (v : List Nat)
    (x : Path) (h : x ∈ (mapInsert m k v).map Prod.fst) :
    x = k ∨ x ∈ m.map Prod.fst := by
  induction m with
  | nil =>
    simp [mapInsert] at h
    exact Or.inl h
  | cons e rest ih =>
    obtain ⟨k', v'⟩ := e
    by_cases hk : k' = k
    · rw [mapInsert, if_pos hk] at h
      simp only [List.map_cons, List.mem_cons] at h ⊢
      rcases h with h | h
      · exact Or.inl h
      · exact Or.inr (Or.inr h)
    · rw [mapInsert, if_neg hk] at h
      simp only [List.map_cons, List.mem_cons] at h ⊢
      rcases h with h | h
      · exact Or.inr (Or.inl h)
      · rcases ih h with h | h
        · exact Or.inl h
        · exact Or.inr (Or.inr h)

theorem keysNodup_mapInsert (m : List (Path × List Nat)) (k : Path) (v : List Nat)
    (h : keysNodup m) : keysNodup (mapInsert m k v) := by
  induction m with
  | nil => simp [keysNodup, mapInsert]
  | cons e rest ih =>
    obtain ⟨k', v'⟩ := e
    by_cases hk : k' = k
    · subst hk
      simpa [keysNodup, mapInsert] using h
    · rw [keysNodup, mapInsert, if_neg hk, List.map_cons, List.nodup_cons]
      rw [keysNodup, List.map_cons, List.nodup_cons] at h
      refine ⟨fun hmem => ?_, ih h.2⟩
      rcases mem_keys_mapInsert rest k v k' hmem with rfl | hmem2
      · exact hk rfl
      · exact h.1 hmem2

/-- C10: `touch(p, b2)` on a `Ram` store that already maps `p` to `b1`
replaces the entry: the double-touch store equals the single-touch store,
`open(p)` yields exactly `b2`, and the unique-key invariant is preserved. -/
theorem ram_touch_overwrite (r : Ram) (p : Path) (b1 b2 : List Nat) :
    (r.touch p b1).touch p b2 = r.touch p b2 ∧
    ((r.touch p b1).touch p b2).open' p = .ok (File.from_ram b2) ∧
    (keysNodup r.inner → keysNodup ((r.touch p b1).touch p b2).inner) := by
  refine ⟨?_, ?_, ?_⟩
  · simp [Ram.touch, mapInsert_mapInsert_self]
  · simp [Ram.touch, Ram.open', mapGet_mapInsert_self]
  · intro h
    exact keysNodup_mapInsert _ _ _ (keysNodup_mapInsert _ _ _ h)

/-- Witness for C10: touching `a` twice leaves the second buffer and a
duplicate-free key list. -/
theorem ram_touch_overwrite_witness :
    ((Ram.new.touch ["a"] [1]).touch ["a"] [2]).open' ["a"] = Except.ok (File.from_ram [2]) ∧
    keysNodup ((Ram.new.touch ["a"] [1]).touch ["a"] [2]).inner :=
  ⟨(ram_touch_overwrite Ram.new ["a"] [1] [2]).2.1,
   (ram_touch_overwrite Ram.new ["a"] [1] [2]).2.2 List.nodup_nil⟩

/-- C1: `MiniFs::open` resolves against the last-mounted binding whose mount
path strip-prefixes the lookup path and returns that store's result verbatim;
the older bindings (`pre`) are never consulted, whatever that result is. -/
theorem minifs_open_last_match (pre post : List Mount) (m : Mount) (p np : Path)
    (hm : stripPrefixComp p m.path = some np)
    (hpost : ∀ m' ∈ post, stripPrefixComp p m'.path = none) :
    MiniFs.open' ⟨pre ++ m :: post⟩ p = m.store.open' np := by
  have h1 : findNext (m :: post) p = some (np, m.store) := by
    simp [findNext, findNext_eq_none post p hpost, hm]
  have h2 : findNext (pre ++ m :: post) p = some (np, m.store) := by
    rw [findNext_append pre (m :: post) p, h1]
  simp [MiniFs.open', h2]

/-- Witness for C1: with `A` (holding `etc/x`) mounted at `/` and an empty
`Ram` store mounted later at `/etc`, `open("/etc/x")` is the later store's
`FileNotFound`, with no fallback to `A` although `A` would have succeeded. -/
theorem minifs_open_last_match_witness :
    MiniFs.open' ⟨[⟨["/"], ramA.toStore⟩, ⟨["/", "etc"], Ram.new.toStore⟩]⟩ ["/", "etc", "x"]
        = Except.error Error.FileNotFound ∧
    ramA.toStore.open' ["etc", "x"] = Except.ok (File.from_ram [120]) :=
  ⟨(minifs_open_last_match [⟨["/"], ramA.toStore⟩] [] ⟨["/", "etc"], Ram.new.toStore⟩
      ["/", "etc", "x"] ["x"] (by decide) (by simp)).trans rfl, rfl⟩

/-- C4: `umount(q)` removes exactly the most recently mounted binding whose
path equals `q`, returns its store, and keeps the remaining bindings in their
relative order; when no binding's path equals `q` it returns nothing and
leaves the table unchanged. -/
theorem minifs_umount_spec (q : Path) :
    (∀ (pre post : List Mount) (m : Mount), m.path = q →
      (∀ m' ∈ post, m'.path ≠ q) →
      MiniFs.umount ⟨pre ++ m :: post⟩ q = (some m.store, ⟨pre ++ post⟩)) ∧
    (∀ l : List Mount, (∀ m' ∈ l, m'.path ≠ q) →
      MiniFs.umount ⟨l⟩ q = (none, ⟨l⟩)) := by
  constructor
  · intro pre post m hm hpost
    have hpostr : rposition post (fun m' => m'.path == q) = none :=
      rposition_eq_none post _ fun m' hm' => by
        simpa using hpost m' hm'
    have h1 : rposition (m :: post) (fun m' => m'.path == q) = some 0 := by
      simp [rposition, hpostr, hm]
    have h2 : rposition (pre ++ m :: post) (fun m' => m'.path == q) = some pre.length := by
      rw [rposition_append pre (m :: post) _, h1]
      simp
    simp only [MiniFs.umount, h2]
    rw [List.drop_left, List.take_left]
    rfl
  · intro l hl
    have h0 : rposition l (fun m' => m'.path == q) = none :=
      rposition_eq_none l _ fun m' hm' => by simpa using hl m' hm'
    simp [MiniFs.umount, h0]

/-- Witness for C4: unmounting `a` from a table with two bindings at `a` and
one at `b` removes only the most recent `a` binding and keeps the rest in
order. -/
theorem minifs_umount_spec_witness :
    MiniFs.umount ⟨[⟨["a"], ramA.toStore⟩, ⟨["b"], Ram.new.toStore⟩, ⟨["a"], Empty⟩]⟩ ["a"]
      = (some Empty, ⟨[⟨["a"], ramA.toStore⟩, ⟨["b"], Ram.new.toStore⟩]⟩) :=
  (minifs_umount_spec ["a"]).1 [⟨["a"], ramA.toStore⟩, ⟨["b"], Ram.new.toStore⟩] []
    ⟨["a"], Empty⟩ rfl (by simp)

/-- C7: when no binding's mount path is a component-prefix of the lookup path
(in particular in an empty mount table), `MiniFs::open` fails with
`FileNotFound`. -/
theorem minifs_open_no_match (fs : MiniFs) (p : Path)
    (h : ∀ m ∈ fs.inner, stripPrefixComp p m.path = none) :
    fs.open' p = .error .FileNotFound := by
  simp [MiniFs.open', findNext_eq_none fs.inner p h]

/-- Witness for C7: a fresh mount table resolves nothing. -/
theorem minifs_open_no_match_witness :
    MiniFs.new.open' ["/", "a"] = Except.error Error.FileNotFound :=
  minifs_open_no_match MiniFs.new ["/", "a"] (by
    intro m hm
    exact absurd hm (List.not_mem_nil m))

/-- C9: mount-path matching in `MiniFs::open` is component-wise: a prefix
strips exactly when the lookup path extends the mount path by whole
components; the character-level prefix `/fi` of `/files/a.txt` does not
match; and a lookup path equal to the mount path matches, forwarding the
empty path to the bound store. -/
theorem minifs_component_matching :
    (∀ (p q r : Path), stripPrefixComp p q = some r ↔ p = q ++ r) ∧
    (∀ st : Store,
      (MiniFs.new.mountStr "/fi" st).openStr "/files/a.txt" = Except.error Error.FileNotFound) ∧
    (∀ (fs : MiniFs) (q : Path) (st : Store), (fs.mount q st).open' q = st.open' []) := by
  refine ⟨?_, fun st => rfl, ?_⟩
  · intro p q r
    induction q generalizing p with
    | nil => simp [stripPrefixComp]
    | cons b q ih =>
      cases p with
      | nil => simp [stripPrefixComp]
      | cons a p =>
        by_cases hab : a = b
        · subst hab
          simp [stripPrefixComp, ih]
        · simp [stripPrefixComp, hab]
  · intro fs q st
    have h1 : findNext [⟨q, st⟩] q = some ([], st) := by
      simp [findNext, stripPrefixComp_self]
    simp only [MiniFs.mount, MiniFs.open', findNext_append fs.inner [⟨q, st⟩] q, h1]

/-- Witness for C9: `/etc` strips from `/etc/x` leaving `x`, by the
component-wise characterisation. -/
theorem minifs_component_matching_witness :
    stripPrefixComp ["/", "etc", "x"] ["/", "etc"] = some ["x"] :=
  (minifs_component_matching.1 ["/", "etc", "x"] ["/", "etc"] ["x"]).mpr rfl

end MiniFsLib
